import Mathlib

/-!
Shallow embedding of the pacman-repo-tools core: the dependency/version parser
(src/parse.rs) and the package index, dependency resolver, repository
synchronizer and package downloader (src/bin/pacman-dl.rs), together with
proofs about the specified behaviour.
-/

namespace PacmanRepoTools

/-- Comparison operator of a version constraint (`Constraint` of the package model). -/
inductive Constraint where
  | equal
  | less
  | lessEqual
  | greater
  | greaterEqual
deriving DecidableEq, Repr

/-- Package version: epoch, upstream version and optional release (spec §3 `Version`). -/
structure Version where
  epoch : Nat
  upstream : String
  release : Option String
deriving DecidableEq, Repr

/-- Version constraint attached to a dependency edge (`VersionConstraint`). -/
structure VersionConstraint where
  version : Version
  constraint : Constraint
deriving DecidableEq, Repr

/-- Parse error carrying a message and the offending input (`ParseError`, as constructed
by `ParseError::new(message, Some(input))` in src/parse.rs). -/
structure ParseError where
  message : String
  input : Option String
deriving DecidableEq, Repr

/-- Split a character list around the first occurrence of a character
(list-level core of src `partition`). -/
def splitFirst (split : Char) : List Char → Option (List Char × List Char)
  | [] => none
  | c :: cs =>
    if c = split then some ([], cs)
    else
      match splitFirst split cs with
      | some (a, b) => some (c :: a, b)
      | none => none

/-- Partition a string by splitting around the first occurrence of a character
(src `partition`). -/
def partition (input : String) (split : Char) : Option (String × String) :=
  match splitFirst split input.toList with
  | some (a, b) => some (⟨a⟩, ⟨b⟩)
  | none => none

/-- Split a character list around the last occurrence of a character
(list-level core of src `rpartition`). -/
def splitLast (split : Char) : List Char → Option (List Char × List Char)
  | [] => none
  | c :: cs =>
    match splitLast split cs with
    | some (a, b) => some (c :: a, b)
    | none => if c = split then some ([], cs) else none

/-- Partition a string by splitting around the last occurrence of a character
(src `rpartition`). -/
def rpartition (input : String) (split : Char) : Option (String × String) :=
  match splitLast split input.toList with
  | some (a, b) => some (⟨a⟩, ⟨b⟩)
  | none => none

/-- Parse a nonempty all-digit character list as a natural number (structural model of
a nonnegative `str::parse`, evaluating by recursion on the characters). -/
def digitsToNat? (l : List Char) : Option Nat :=
  if l.isEmpty then none
  else if l.all Char.isDigit then
    some (l.foldl (fun acc c => acc * 10 + (c.toNat - 48)) 0)
  else none

/-- Modelled from the spec: `Version::from_str` lives in src/version.rs, which is not
among the provided sources. Spec §3: a version is "Parsed from `epoch:upstream-release`;
epoch defaults to 0 when absent; release absent means unspecified". The epoch is the
part before the first `:` (absent or non-numeric yields 0) and the release the part
after the last `-`. -/
def Version.from_str (s : String) : Version :=
  let er :=
    match partition s ':' with
    | some (e, r) => ((digitsToNat? e.toList).getD 0, r)
    | none => (0, s)
  match rpartition er.2 '-' with
  | some (upstream, release) => ⟨er.1, upstream, some release⟩
  | none => ⟨er.1, er.2, none⟩

/-- Parse a string of the form pkgname-pkgver-pkgrel into separate components
(src `parse_pkgname_pkgver`). -/
def parse_pkgname_pkgver (input : String) : Except ParseError (String × Version) :=
  match partition input '-' with
  | none => .error ⟨"missing pkver", some input⟩
  | some (name₁, pkgrel) =>
    match partition name₁ '-' with
    | none => .error ⟨"missing pkgrel", some input⟩
    | some (name, pkgver) =>
      match partition pkgver ':' with
      | some (epochStr, pkgver₂) =>
        match digitsToNat? epochStr.toList with
        | none => .error ⟨"invalid epoch in package version", some input⟩
        | some epoch => .ok (name, ⟨epoch, pkgver₂, some pkgrel⟩)
      | none => .ok (name, ⟨0, pkgver, some pkgrel⟩)

/-- Check if a character is part of a version constraint operator
(src `is_constraint_char`). -/
def is_constraint_char (c : Char) : Bool :=
  c = '>' || c = '<' || c = '='

/-- Split a character list at the first character satisfying a predicate, keeping that
character in the second half (models `str::find` plus slicing in src `parse_depends`). -/
def findSplit (p : Char → Bool) : List Char → Option (List Char × List Char)
  | [] => none
  | c :: cs =>
    if p c then some ([], c :: cs)
    else
      match findSplit p cs with
      | some (a, b) => some (c :: a, b)
      | none => none

/-- Parse a version constraint operator and the remaining version text
(src `parse_constraint`; the prefixes are tried in the order of the source). -/
def parse_constraint (s : String) : Option (Constraint × String) :=
  match s.toList with
  | '>' :: '=' :: v => some (.greaterEqual, ⟨v⟩)
  | '<' :: '=' :: v => some (.lessEqual, ⟨v⟩)
  | '>' :: v => some (.greater, ⟨v⟩)
  | '<' :: v => some (.less, ⟨v⟩)
  | '=' :: '=' :: v => some (.equal, ⟨v⟩)
  | '=' :: v => some (.equal, ⟨v⟩)
  | _ => none

/-- Parse a dependency declaration into a package name and an optional version
constraint (src `parse_depends`). The `none` fallback for `parse_constraint` is
unreachable because the split point satisfies `is_constraint_char` (the source
unwraps there). -/
def parse_depends (blob : String) : String × Option VersionConstraint :=
  match findSplit is_constraint_char blob.toList with
  | some (name, rest) =>
    match parse_constraint ⟨rest⟩ with
    | some (c, version) => (⟨name⟩, some ⟨Version.from_str version, c⟩)
    | none => (⟨name⟩, none)
  | none => (blob, none)

/-- Name provided by a package, with an optional version (entry of
`DatabasePackage.provides`; spec §3 `PackageRecord.provides`). -/
structure Provide where
  name : String
  version : Option Version
deriving DecidableEq, Repr

/-- Dependency edge: target name with an optional version constraint (entry of
`DatabasePackage.depends`; spec §3 `PackageRecord.depends`). -/
structure Dependency where
  name : String
  constraint : Option VersionConstraint
deriving DecidableEq, Repr

/-- Package record read from repository metadata (`DatabasePackage` of src/db.rs, with
the fields consumed by pacman-dl; spec §3 `PackageRecord`). -/
structure DatabasePackage where
  name : String
  filename : String
  compressed_size : Nat
  sha256sum : String
  depends : List Dependency
  provides : List Provide
deriving DecidableEq, Repr

/-- Repository metadata (src `Repository`); the database URL is kept as a plain string. -/
structure Repository where
  name : String
  db_url : String
deriving DecidableEq, Repr

/-- Report of a duplicate package name during index construction (the src warning names
the package, the retained repository and the dropped repository). -/
structure DupReport where
  name : String
  keptRepo : String
  droppedRepo : String
deriving DecidableEq, Repr

/-- List-backed map from package name to (repository, record), modelling the
`BTreeMap` built by src `index_packages_by_name`. -/
abbrev ByName := List (String × Repository × DatabasePackage)

/-- Step of src `index_packages_by_name` for one record: insert it if its name is
vacant, otherwise report a duplicate. -/
def indexStep (acc : ByName × List DupReport) (entry : Repository × DatabasePackage) :
    ByName × List DupReport :=
  match List.lookup entry.2.name acc.1 with
  | some (prevRepo, _) =>
    (acc.1, acc.2 ++ [⟨entry.2.name, prevRepo.name, entry.1.name⟩])
  | none => (acc.1 ++ [(entry.2.name, entry.1, entry.2)], acc.2)

/-- Index packages from the per-repository record lists by name; the first repository
wins on a name collision and later occurrences are reported as duplicates
(src `index_packages_by_name`). The build is total: it cannot fail. -/
def index_packages_by_name (repos : List (Repository × List DatabasePackage)) :
    ByName × List DupReport :=
  repos.foldl (fun acc rp => rp.2.foldl (fun a p => indexStep a (rp.1, p)) acc) ([], [])

/-- Per-repository record lists flattened in repository-priority order. -/
def flattenRepos (repos : List (Repository × List DatabasePackage)) :
    List (Repository × DatabasePackage) :=
  repos.flatMap (fun rp => rp.2.map (fun p => (rp.1, p)))

/-- Decidable test for the lexicographic order on strings that evaluates by structural
recursion on the character lists (the library instance is defined by well-founded
recursion on iterators and does not reduce). -/
def strLtDec (a b : String) : Decidable (a < b) :=
  decidable_of_iff (a.toList < b.toList) String.lt_iff_toList_lt.symm

/-- Insert a string into a sorted list, keeping it sorted and duplicate-free
(models `BTreeSet::insert`). -/
def insertSorted (x : String) : List String → List String
  | [] => [x]
  | y :: ys =>
    @ite _ (x < y) (strLtDec x y) (x :: y :: ys)
      (if x = y then y :: ys else y :: insertSorted x ys)

/-- List-backed map from capability name to its sorted set of provider names, modelling
the `BTreeMap` of `BTreeSet`s built by src `index_providers`. -/
abbrev Providers := List (String × List String)

/-- Insert a provider name into the set of one capability
(models `index.entry(key).or_default().insert(value)`). -/
def providersInsert (key value : String) : Providers → Providers
  | [] => [(key, [value])]
  | (k, s) :: rest =>
    if k = key then (k, insertSorted value s) :: rest
    else (k, s) :: providersInsert key value rest

/-- Build the map from capability name to the set of package names providing it, from
the values of the by-name index (src `index_providers`). -/
def index_providers (byName : ByName) : Providers :=
  byName.foldl
    (fun m e =>
      e.2.2.provides.foldl (fun m t => providersInsert t.name e.2.2.name m)
        (providersInsert e.2.2.name e.2.2.name m))
    []

/-- Look up the provider set of a capability; an absent entry reads as the empty set. -/
def providersLookup (m : Providers) (k : String) : List String :=
  (List.lookup k m).getD []

/-- Look up a package by name in the by-name index (models `BTreeMap::get`). -/
def lookupPkg (byName : ByName) (name : String) : Option (Repository × DatabasePackage) :=
  List.lookup name byName

/-- Resolution error (src `DependencyResolver::resolve_target`): either no provider
exists for a target, or a chosen provider is missing from the index (the second case
is proved unreachable below). -/
inductive ResolveError where
  | unresolvedTarget (target : String)
  | noSuchPackage (name : String)
deriving DecidableEq, Repr

/-- State of the dependency resolver: the selected package names and the already
provided target names (src `DependencyResolver`). -/
structure ResolverState where
  selected_packages : List String
  provided_targets : List String
deriving DecidableEq, Repr

/-- Add a package to the selection: its name is selected, and its name together with
all its `provides` entries become provided (src `DependencyResolver::add_package`). -/
def add_package (st : ResolverState) (pkg : DatabasePackage) : ResolverState where
  selected_packages := insertSorted pkg.name st.selected_packages
  provided_targets :=
    pkg.provides.foldl (fun pr t => insertSorted t.name pr)
      (insertSorted pkg.name st.provided_targets)

/-- Look up the package record of a chosen provider name
(the final `self.packages.get(provider)` of src `DependencyResolver::resolve_target`). -/
def resolveProvider (byName : ByName) (provider : String) :
    Except ResolveError DatabasePackage :=
  match lookupPkg byName provider with
  | some rp => .ok rp.2
  | none => .error (.noSuchPackage provider)

/-- Choose a package for a target: the package of that very name if it exists,
otherwise the first (least) element of the target's provider set
(src `DependencyResolver::resolve_target`). -/
def resolve_target (byName : ByName) (providers : Providers) (target : String) :
    Except ResolveError DatabasePackage :=
  match lookupPkg byName target with
  | some rp => .ok rp.2
  | none =>
    match (List.lookup target providers).bind List.head? with
    | none => .error (.unresolvedTarget target)
    | some provider => resolveProvider byName provider

/-- Queue-draining loop of src `DependencyResolver::resolve`, with explicit fuel;
`none` means the fuel ran out (shown impossible for the fuel used by `resolve`).
Popping the head of the sorted queue models `pop_first` on a `BTreeSet`. -/
def resolveLoop (byName : ByName) (providers : Providers) :
    Nat → ResolverState → List String → Option (Except ResolveError (List String))
  | 0, _, _ => none
  | _ + 1, st, [] => some (.ok st.selected_packages)
  | fuel + 1, st, target :: queue =>
    if st.provided_targets.contains target then
      resolveLoop byName providers fuel st queue
    else
      match resolve_target byName providers target with
      | .error e => some (.error e)
      | .ok pkg =>
        let st' := add_package st pkg
        let queue' := pkg.depends.foldl
          (fun q d => if st'.provided_targets.contains d.name then q else insertSorted d.name q)
          queue
        resolveLoop byName providers fuel st' queue'

/-- Step of the first phase of src `DependencyResolver::resolve` for one target: select
it if it is a real package (enqueueing its dependencies), otherwise enqueue it as a
pending capability. -/
def resolveInitStep (byName : ByName) (acc : ResolverState × List String)
    (target : String) : ResolverState × List String :=
  match lookupPkg byName target with
  | some rp =>
    (add_package acc.1 rp.2, rp.2.depends.foldl (fun q d => insertSorted d.name q) acc.2)
  | none => (acc.1, insertSorted target acc.2)

/-- First phase of src `DependencyResolver::resolve`: select every explicitly listed
real package (enqueueing its dependencies) and enqueue every other target as a pending
capability. -/
def resolveInit (byName : ByName) (targets : List String) : ResolverState × List String :=
  targets.foldl (resolveInitStep byName) (⟨[], []⟩, [])

/-- Names of all dependency edges of the indexed packages. -/
def depNames (byName : ByName) : List String :=
  byName.flatMap (fun e => e.2.2.depends.map (fun d => d.name))

/-- Names and provided capabilities of all indexed packages (the capability universe). -/
def provNames (byName : ByName) : List String :=
  byName.flatMap (fun e => e.2.2.name :: e.2.2.provides.map (fun t => t.name))

/-- Fuel sufficient to drain the resolver queue (an upper bound on the loop measure,
shown sufficient below). -/
def resolveFuel (byName : ByName) (targets : List String) : Nat :=
  let q := (targets ++ depNames byName).length
  (q + 1) * ((provNames byName).length + 1) + q + 1

/-- Resolve the targets into the set of packages to download
(src `DependencyResolver::resolve`). -/
def resolve (byName : ByName) (targets : List String) :
    Option (Except ResolveError (List String)) :=
  let sq := resolveInit byName targets
  resolveLoop byName (index_providers byName) (resolveFuel byName targets) sq.1 sq.2

/-- Lower-case an ASCII letter (models `u8::to_ascii_lowercase`). -/
def toLowerAscii (c : Char) : Char :=
  if 'A' ≤ c ∧ c ≤ 'Z' then Char.ofNat (c.toNat + 32) else c

/-- Case-insensitive ASCII string comparison (models `str::eq_ignore_ascii_case`). -/
def eq_ignore_ascii_case (a b : String) : Bool :=
  a.toList.map toLowerAscii == b.toList.map toLowerAscii

/-- Download a single package if required (src `download_package`). The file is
abstracted to its byte list; `file_sha256` is the hex-digest function of the external
`sha2` crate, taken as a parameter. The result is the pair
(download occurred, final file contents at the destination path). -/
def download_package (file_sha256 : List Nat → String) (existing : Option (List Nat))
    (package : DatabasePackage) (netData : List Nat) : Bool × Option (List Nat) :=
  let skip :=
    match existing with
    | some content =>
      if content.length ≠ package.compressed_size then false
      else if !eq_ignore_ascii_case (file_sha256 content) package.sha256sum then false
      else true
    | none => false
  if skip then (false, existing) else (true, some netData)

/-- HTTP response as consumed by `maybe_download`: status code, validator headers and
body bytes. -/
structure HttpResponse where
  status : Nat
  lastModified : Option String
  etag : Option String
  body : List Nat

/-- Freshly downloaded database archive together with its validators (src `Download`). -/
structure Download where
  data : List Nat
  last_modified : Option String
  etag : Option String

/-- Filesystem and subprocess effects of a synchronization pass, in order. -/
inductive FsEvent where
  | removeFile (path : String)
  | removeDirAll (path : String)
  | makeDirs (path : String)
  | invokeExtractor (data : List Nat)
  | writeFile (path : String) (content : String)
deriving DecidableEq, Repr

/-- Model of `reqwest::Response::error_for_status`: client and server error statuses
(400-599) become errors. -/
def error_for_status (r : HttpResponse) : Except String HttpResponse :=
  if 400 ≤ r.status ∧ r.status ≤ 599 then .error "status error" else .ok r

/-- Conditionally download a file (src `maybe_download`): a 304 response yields no
download, any other successful response yields the body and its validators. -/
def maybe_download (response : HttpResponse) : Except String (Option Download) :=
  match error_for_status response with
  | .error e => .error e
  | .ok r =>
    if r.status = 304 then .ok none
    else .ok (some ⟨r.body, r.lastModified, r.etag⟩)

/-- Download and extract a database archive (src `download_database`), returning the
ordered filesystem/subprocess effects together with the result. `extractorOk` is the
success of the external `bsdtar` subprocess (src `extract_archive`). -/
def download_database (directory : String) (response : HttpResponse)
    (extractorOk : Bool) : List FsEvent × Except String Unit :=
  let lastModifiedPath := directory ++ "/last-modified"
  let etagPath := directory ++ "/etag"
  match maybe_download response with
  | .error e => ([], .error e)
  | .ok none => ([], .ok ())
  | .ok (some download) =>
    let pre := [FsEvent.removeFile lastModifiedPath, FsEvent.removeFile etagPath,
      FsEvent.removeDirAll directory, FsEvent.makeDirs directory,
      FsEvent.invokeExtractor download.data]
    if extractorOk then
      let ev₁ :=
        match download.last_modified with
        | some lm => [FsEvent.writeFile lastModifiedPath lm]
        | none => []
      let ev₂ :=
        match download.etag with
        | some e => [FsEvent.writeFile etagPath e]
        | none => []
      (pre ++ ev₁ ++ ev₂, .ok ())
    else (pre, .error "bsdtar failed")

/-! Helper lemmas about list-backed maps and sorted insertion. -/

theorem lookup_cons_self {β : Type} {k : String} (v : β) (rest : List (String × β)) :
    List.lookup k ((k, v) :: rest) = some v := by
  rw [List.lookup_cons]
  rw [show (k == k) = true by simp]

theorem lookup_cons_ne {β : Type} {k k₁ : String} (v : β) (rest : List (String × β))
    (hk : k ≠ k₁) : List.lookup k ((k₁, v) :: rest) = List.lookup k rest := by
  rw [List.lookup_cons]
  rw [show (k == k₁) = false by simpa using hk]

theorem lookup_mem {β : Type} {l : List (String × β)} {k : String} {v : β}
    (h : List.lookup k l = some v) : (k, v) ∈ l := by
  induction l with
  | nil => simp [List.lookup] at h
  | cons e rest ih =>
    obtain ⟨k₁, v₁⟩ := e
    by_cases hk : k = k₁
    · subst hk
      rw [lookup_cons_self] at h
      cases h
      exact List.mem_cons_self _ _
    · rw [lookup_cons_ne _ _ hk] at h
      exact List.mem_cons_of_mem _ (ih h)

theorem lookup_isSome_of_mem {β : Type} {l : List (String × β)} {k : String} {v : β}
    (h : (k, v) ∈ l) : (List.lookup k l).isSome := by
  induction l with
  | nil => simp at h
  | cons e rest ih =>
    obtain ⟨k₁, v₁⟩ := e
    by_cases hk : k = k₁
    · subst hk
      rw [lookup_cons_self]
      rfl
    · rw [lookup_cons_ne _ _ hk]
      rcases List.mem_cons.mp h with h₁ | h₁
      · exact absurd (congrArg Prod.fst h₁) hk
      · exact ih h₁

theorem lookup_eq_none_iff {β : Type} {l : List (String × β)} {k : String} :
    List.lookup k l = none ↔ k ∉ l.map Prod.fst := by
  induction l with
  | nil => simp [List.lookup]
  | cons e rest ih =>
    obtain ⟨k₁, v₁⟩ := e
    by_cases hk : k = k₁
    · subst hk
      rw [lookup_cons_self]
      simp
    · rw [lookup_cons_ne _ _ hk]
      simp [ih, hk]

theorem mem_unique_of_nodup_keys {β : Type} {l : List (String × β)} {k : String}
    {v v' : β} (hnd : (l.map Prod.fst).Nodup) (h : (k, v) ∈ l) (h' : (k, v') ∈ l) :
    v = v' := by
  induction l with
  | nil => simp at h
  | cons e rest ih =>
    obtain ⟨k₁, v₁⟩ := e
    simp only [List.map_cons, List.nodup_cons] at hnd
    rcases List.mem_cons.mp h with h₁ | h₁ <;> rcases List.mem_cons.mp h' with h₂ | h₂
    · obtain ⟨hk₁, hv₁⟩ := Prod.mk.injEq .. ▸ h₁
      obtain ⟨hk₂, hv₂⟩ := Prod.mk.injEq .. ▸ h₂
      rw [hv₁, hv₂]
    · exfalso
      obtain ⟨hk₁, _⟩ := Prod.mk.injEq .. ▸ h₁
      exact hnd.1 (hk₁ ▸ List.mem_map_of_mem Prod.fst h₂)
    · exfalso
      obtain ⟨hk₂, _⟩ := Prod.mk.injEq .. ▸ h₂
      exact hnd.1 (hk₂ ▸ List.mem_map_of_mem Prod.fst h₁)
    · exact ih hnd.2 h₁ h₂

theorem mem_insertSorted {a x : String} : ∀ {l : List String},
    a ∈ insertSorted x l ↔ a = x ∨ a ∈ l
  | [] => by simp [insertSorted]
  | y :: ys => by
    by_cases h₁ : x < y
    · simp [insertSorted, h₁]
    · by_cases h₂ : x = y
      · subst h₂
        rw [insertSorted, if_neg h₁, if_pos rfl]
        simp only [List.mem_cons]
        tauto
      · have := @mem_insertSorted a x ys
        simp only [insertSorted, if_neg h₁, if_neg h₂, List.mem_cons, this]
        tauto

theorem sorted_insertSorted {x : String} : ∀ {l : List String},
    l.Sorted (· < ·) → (insertSorted x l).Sorted (· < ·)
  | [], _ => by simp [insertSorted]
  | y :: ys, h => by
    rw [List.sorted_cons] at h
    by_cases h₁ : x < y
    · rw [insertSorted, if_pos h₁, List.sorted_cons]
      refine ⟨?_, List.sorted_cons.mpr h⟩
      intro b hb
      rcases List.mem_cons.mp hb with h₂ | h₂
      · exact h₂ ▸ h₁
      · exact h₁.trans (h.1 b h₂)
    · by_cases h₂ : x = y
      · rw [insertSorted, if_neg h₁, if_pos h₂]
        exact List.sorted_cons.mpr h
      · rw [insertSorted, if_neg h₁, if_neg h₂, List.sorted_cons]
        refine ⟨?_, sorted_insertSorted h.2⟩
        intro b hb
        rcases mem_insertSorted.mp hb with h₃ | h₃
        · subst h₃
          rcases lt_trichotomy b y with h₄ | h₄ | h₄
          · exact absurd h₄ h₁
          · exact absurd h₄ h₂
          · exact h₄
        · exact h.1 b h₃

theorem lookup_append {β : Type} (l₁ l₂ : List (String × β)) (k : String) :
    List.lookup k (l₁ ++ l₂) = (List.lookup k l₁).or (List.lookup k l₂) := by
  induction l₁ with
  | nil => simp
  | cons e rest ih =>
    obtain ⟨k₁, v₁⟩ := e
    by_cases hk : k = k₁
    · subst hk
      rw [List.cons_append, lookup_cons_self, lookup_cons_self]
      rfl
    · rw [List.cons_append, lookup_cons_ne _ _ hk, lookup_cons_ne _ _ hk, ih]

/-! Lemmas about the by-name index construction. -/

theorem index_eq_foldl_flatten (repos : List (Repository × List DatabasePackage)) :
    ∀ acc, repos.foldl (fun acc rp => rp.2.foldl (fun a p => indexStep a (rp.1, p)) acc) acc
      = (flattenRepos repos).foldl indexStep acc := by
  induction repos with
  | nil => intro acc; rfl
  | cons rp rest ih =>
    intro acc
    rw [List.foldl_cons, ih]
    rw [show flattenRepos (rp :: rest)
        = (rp.2.map fun p => (rp.1, p)) ++ flattenRepos rest by
      simp [flattenRepos]]
    rw [List.foldl_append, List.foldl_map]

theorem lookup_indexFold (l : List (Repository × DatabasePackage)) :
    ∀ (acc : ByName × List DupReport) (name : String),
      List.lookup name ((l.foldl indexStep acc).1)
        = (List.lookup name acc.1).or (l.find? (fun e => e.2.name == name)) := by
  induction l with
  | nil =>
    intro acc name
    simp
  | cons e rest ih =>
    intro acc name
    rw [List.foldl_cons, ih]
    by_cases hn : e.2.name = name
    · rw [List.find?_cons_of_pos _ (by simp [hn])]
      unfold indexStep
      cases hlk : List.lookup e.2.name acc.1 with
      | some rv =>
        simp only [hlk]
        rw [hn] at hlk
        rw [hlk]
        rfl
      | none =>
        simp only [hlk]
        rw [hn] at hlk
        rw [lookup_append, hlk]
        rw [show List.lookup name [(e.2.name, e.1, e.2)] = some (e.1, e.2) by
          rw [hn]
          exact lookup_cons_self _ _]
        rfl
    · rw [List.find?_cons_of_neg _ (by simp [hn])]
      unfold indexStep
      cases hlk : List.lookup e.2.name acc.1 with
      | some rv => simp only [hlk]
      | none =>
        simp only [hlk]
        rw [lookup_append]
        rw [show List.lookup name [(e.2.name, e.1, e.2)] = none by
          rw [lookup_cons_ne _ _ (fun h => hn h.symm)]
          rfl]
        simp

theorem indexFold_names_eq_keys (l : List (Repository × DatabasePackage)) :
    ∀ acc : ByName × List DupReport, (∀ e ∈ acc.1, e.2.2.name = e.1) →
      ∀ e ∈ (l.foldl indexStep acc).1, e.2.2.name = e.1 := by
  induction l with
  | nil => exact fun acc h => h
  | cons x rest ih =>
    intro acc hacc
    rw [List.foldl_cons]
    apply ih
    unfold indexStep
    cases hlk : List.lookup x.2.name acc.1 with
    | some rv =>
      simpa [hlk] using hacc
    | none =>
      simp only [hlk]
      intro e he
      rcases List.mem_append.mp he with h | h
      · exact hacc e h
      · simp only [List.mem_singleton] at h
        subst h
        rfl

theorem indexFold_keys_nodup (l : List (Repository × DatabasePackage)) :
    ∀ acc : ByName × List DupReport, (acc.1.map Prod.fst).Nodup →
      ((l.foldl indexStep acc).1.map Prod.fst).Nodup := by
  induction l with
  | nil => exact fun acc h => h
  | cons x rest ih =>
    intro acc hacc
    rw [List.foldl_cons]
    apply ih
    unfold indexStep
    cases hlk : List.lookup x.2.name acc.1 with
    | some rv => simpa [hlk] using hacc
    | none =>
      simp only [hlk]
      have hnotmem : x.2.name ∉ acc.1.map Prod.fst := lookup_eq_none_iff.mp hlk
      simp [List.nodup_append, hacc, hnotmem]

theorem indexFold_length (l : List (Repository × DatabasePackage)) :
    ∀ acc : ByName × List DupReport,
      (l.foldl indexStep acc).1.length + (l.foldl indexStep acc).2.length
        = acc.1.length + acc.2.length + l.length := by
  induction l with
  | nil => intro acc; simp
  | cons x rest ih =>
    intro acc
    rw [List.foldl_cons, ih]
    unfold indexStep
    cases hlk : List.lookup x.2.name acc.1 with
    | some rv => simp [hlk]; omega
    | none => simp [hlk]; omega

/-- Correctness of one duplicate report relative to an index: the report's package is in
the index and the retained repository is correctly named. -/
def dupOk (idx : ByName) (d : DupReport) : Prop :=
  ∃ r p, List.lookup d.name idx = some (r, p) ∧ d.keptRepo = r.name

theorem dupOk_mono {idx : ByName} {entry : String × Repository × DatabasePackage}
    {d : DupReport} (h : dupOk idx d) : dupOk (idx ++ [entry]) d := by
  obtain ⟨r, p, hl, hk⟩ := h
  exact ⟨r, p, by rw [lookup_append, hl]; rfl, hk⟩

theorem indexFold_dups (l : List (Repository × DatabasePackage)) :
    ∀ acc : ByName × List DupReport, (∀ d ∈ acc.2, dupOk acc.1 d) →
      ∀ d ∈ (l.foldl indexStep acc).2, dupOk (l.foldl indexStep acc).1 d := by
  induction l with
  | nil => exact fun acc h => h
  | cons x rest ih =>
    intro acc hacc
    rw [List.foldl_cons]
    apply ih
    unfold indexStep
    cases hlk : List.lookup x.2.name acc.1 with
    | some rv =>
      simp only [hlk]
      intro d hd
      rcases List.mem_append.mp hd with h | h
      · exact hacc d h
      · simp only [List.mem_singleton] at h
        subst h
        exact ⟨rv.1, rv.2, by simpa using hlk, rfl⟩
    | none =>
      simp only [hlk]
      intro d hd
      exact dupOk_mono (hacc d hd)

theorem mem_foldl_insertSorted {α : Type} (f : α → String) {a : String} :
    ∀ (l : List α) (init : List String),
      a ∈ l.foldl (fun q x => insertSorted (f x) q) init ↔
        (∃ x ∈ l, f x = a) ∨ a ∈ init := by
  intro l
  induction l with
  | nil => simp
  | cons x xs ih =>
    intro init
    rw [List.foldl_cons, ih]
    simp only [List.mem_cons, mem_insertSorted]
    constructor
    · rintro (⟨y, hy, hfy⟩ | hax | hai)
      · exact .inl ⟨y, .inr hy, hfy⟩
      · exact .inl ⟨x, .inl rfl, hax.symm⟩
      · exact .inr hai
    · rintro (⟨y, hy | hy, hfy⟩ | hai)
      · exact .inr (.inl (hy ▸ hfy.symm))
      · exact .inl ⟨y, hy, hfy⟩
      · exact .inr (.inr hai)

theorem sorted_foldl_insertSorted {α : Type} (f : α → String) :
    ∀ (l : List α) (init : List String), init.Sorted (· < ·) →
      (l.foldl (fun q x => insertSorted (f x) q) init).Sorted (· < ·) := by
  intro l
  induction l with
  | nil => intro init h; exact h
  | cons x xs ih =>
    intro init h
    exact ih _ (sorted_insertSorted h)

/-! Lemmas about the provider index. -/

theorem mem_providersLookup_providersInsert {k v X a : String} :
    ∀ {m : Providers},
      a ∈ providersLookup (providersInsert k v m) X ↔
        (X = k ∧ a = v) ∨ a ∈ providersLookup m X
  | [] => by
    by_cases hX : X = k
    · subst hX
      simp [providersInsert, providersLookup, lookup_cons_self]
    · simp [providersInsert, providersLookup, lookup_cons_ne _ _ hX, hX]
  | (k₁, s) :: rest => by
    by_cases hk : k₁ = k
    · subst hk
      rw [providersInsert, if_pos rfl]
      by_cases hX : X = k₁
      · subst hX
        simp [providersLookup, lookup_cons_self, mem_insertSorted]
      · simp [providersLookup, lookup_cons_ne _ _ hX, hX]
    · rw [providersInsert, if_neg hk]
      by_cases hX : X = k₁
      · subst hX
        simp [providersLookup, lookup_cons_self, hk]
      · have := @mem_providersLookup_providersInsert k v X a rest
        simp only [providersLookup, lookup_cons_ne _ _ hX] at this ⊢
        exact this

theorem mem_providersLookup_providesFold {pkgname X a : String} :
    ∀ (ts : List Provide) (m : Providers),
      a ∈ providersLookup (ts.foldl (fun m t => providersInsert t.name pkgname m) m) X ↔
        (a = pkgname ∧ X ∈ ts.map Provide.name) ∨ a ∈ providersLookup m X := by
  intro ts
  induction ts with
  | nil => simp
  | cons t ts ih =>
    intro m
    rw [List.foldl_cons, ih, mem_providersLookup_providersInsert]
    simp only [List.map_cons, List.mem_cons]
    tauto

theorem mem_providersLookup_indexProvidersFold {X a : String} :
    ∀ (l : ByName) (m : Providers),
      a ∈ providersLookup
          (l.foldl
            (fun m e =>
              e.2.2.provides.foldl (fun m t => providersInsert t.name e.2.2.name m)
                (providersInsert e.2.2.name e.2.2.name m))
            m) X ↔
        (∃ e ∈ l, a = e.2.2.name ∧ (X = e.2.2.name ∨ X ∈ e.2.2.provides.map Provide.name))
          ∨ a ∈ providersLookup m X := by
  intro l
  induction l with
  | nil => simp
  | cons e l ih =>
    intro m
    rw [List.foldl_cons, ih, mem_providersLookup_providesFold,
      mem_providersLookup_providersInsert]
    simp only [List.mem_cons]
    constructor
    · rintro (⟨f, hf, hfa, hfX⟩ | ⟨ha₁, ha₂⟩ | ⟨hX, ha⟩ | hm)
      · exact .inl ⟨f, .inr hf, hfa, hfX⟩
      · exact .inl ⟨e, .inl rfl, ha₁, .inr ha₂⟩
      · exact .inl ⟨e, .inl rfl, ha, .inl hX⟩
      · exact .inr hm
    · rintro (⟨f, hf | hf, hfa, hfX | hfX⟩ | hm)
      · subst hf
        exact .inr (.inr (.inl ⟨hfX, hfa⟩))
      · subst hf
        exact .inr (.inl ⟨hfa, hfX⟩)
      · exact .inl ⟨f, hf, hfa, .inl hfX⟩
      · exact .inl ⟨f, hf, hfa, .inr hfX⟩
      · exact .inr (.inr (.inr hm))

theorem mem_providersLookup_index_providers {byName : ByName} {X a : String} :
    a ∈ providersLookup (index_providers byName) X ↔
      ∃ e ∈ byName, a = e.2.2.name ∧
        (X = e.2.2.name ∨ X ∈ e.2.2.provides.map Provide.name) := by
  rw [index_providers, mem_providersLookup_indexProvidersFold]
  simp [providersLookup]

/-- Invariant: every provider set stored in the map is sorted. -/
def allSetsSorted (m : Providers) : Prop :=
  ∀ e ∈ m, (e.2 : List String).Sorted (· < ·)

theorem allSetsSorted_providersInsert {k v : String} :
    ∀ {m : Providers}, allSetsSorted m → allSetsSorted (providersInsert k v m)
  | [], _ => by
    intro e he
    simp only [providersInsert, List.mem_singleton] at he
    subst he
    simp [insertSorted]
  | (k₁, s) :: rest, h => by
    have hs : s.Sorted (· < ·) := h (k₁, s) (List.mem_cons_self _ _)
    have hrest : allSetsSorted rest := fun e he => h e (List.mem_cons_of_mem _ he)
    by_cases hk : k₁ = k
    · rw [providersInsert, if_pos hk]
      intro e he
      rcases List.mem_cons.mp he with h₁ | h₁
      · subst h₁
        exact sorted_insertSorted hs
      · exact hrest e h₁
    · rw [providersInsert, if_neg hk]
      intro e he
      rcases List.mem_cons.mp he with h₁ | h₁
      · subst h₁
        exact hs
      · exact allSetsSorted_providersInsert hrest e h₁

theorem allSetsSorted_index_providers (byName : ByName) :
    allSetsSorted (index_providers byName) := by
  rw [index_providers]
  have main : ∀ (l : ByName) (m : Providers), allSetsSorted m →
      allSetsSorted
        (l.foldl
          (fun m e =>
            e.2.2.provides.foldl (fun m t => providersInsert t.name e.2.2.name m)
              (providersInsert e.2.2.name e.2.2.name m))
          m) := by
    intro l
    induction l with
    | nil => exact fun m h => h
    | cons e l ih =>
      intro m hm
      rw [List.foldl_cons]
      apply ih
      have inner : ∀ (ts : List Provide) (m : Providers), allSetsSorted m →
          allSetsSorted (ts.foldl (fun m t => providersInsert t.name e.2.2.name m) m) := by
        intro ts
        induction ts with
        | nil => exact fun m h => h
        | cons t ts ihts =>
          intro m hm
          exact ihts _ (allSetsSorted_providersInsert hm)
      exact inner _ _ (allSetsSorted_providersInsert hm)
  exact main byName [] (by intro e he; simp at he)

theorem providersLookup_sorted (byName : ByName) (X : String) :
    (providersLookup (index_providers byName) X).Sorted (· < ·) := by
  rw [providersLookup]
  cases hlk : List.lookup X (index_providers byName) with
  | none => simp
  | some s =>
    have := allSetsSorted_index_providers byName (X, s) (lookup_mem hlk)
    simpa using this

/-! Lemmas about the dependency resolver. -/

theorem mem_add_package_provided {st : ResolverState} {pkg : DatabasePackage} {a : String} :
    a ∈ (add_package st pkg).provided_targets ↔
      a = pkg.name ∨ a ∈ pkg.provides.map Provide.name ∨ a ∈ st.provided_targets := by
  show a ∈ pkg.provides.foldl (fun pr t => insertSorted t.name pr)
      (insertSorted pkg.name st.provided_targets) ↔ _
  rw [mem_foldl_insertSorted Provide.name]
  simp only [mem_insertSorted, List.mem_map]
  constructor
  · rintro (h | h | h)
    · exact .inr (.inl h)
    · exact .inl h
    · exact .inr (.inr h)
  · rintro (h | h | h)
    · exact .inr (.inl h)
    · exact .inl h
    · exact .inr (.inr h)

theorem mem_add_package_selected {st : ResolverState} {pkg : DatabasePackage} {a : String} :
    a ∈ (add_package st pkg).selected_packages ↔
      a = pkg.name ∨ a ∈ st.selected_packages := by
  show a ∈ insertSorted pkg.name st.selected_packages ↔ _
  exact mem_insertSorted

theorem mem_queueFold_of_mem {prov : List String} {deps : List Dependency} {a : String} :
    ∀ {q : List String}, a ∈ q →
      a ∈ deps.foldl
        (fun q d => if prov.contains d.name then q else insertSorted d.name q) q := by
  induction deps with
  | nil => exact fun h => h
  | cons d ds ih =>
    intro q hq
    rw [List.foldl_cons]
    apply ih
    by_cases hc : prov.contains d.name
    · rw [if_pos hc]
      exact hq
    · rw [if_neg hc]
      exact mem_insertSorted.mpr (.inr hq)

theorem mem_queueFold_sub {prov : List String} {deps : List Dependency} {a : String} :
    ∀ {q : List String},
      a ∈ deps.foldl
        (fun q d => if prov.contains d.name then q else insertSorted d.name q) q →
      a ∈ q ∨ ∃ d ∈ deps, d.name = a := by
  induction deps with
  | nil => exact fun h => .inl h
  | cons d ds ih =>
    intro q hq
    rw [List.foldl_cons] at hq
    rcases ih hq with h | ⟨d', hd', hda⟩
    · by_cases hc : prov.contains d.name
      · rw [if_pos hc] at h
        exact .inl h
      · rw [if_neg hc] at h
        rcases mem_insertSorted.mp h with h₁ | h₁
        · exact .inr ⟨d, List.mem_cons_self _ _, h₁.symm⟩
        · exact .inl h₁
    · exact .inr ⟨d', List.mem_cons_of_mem _ hd', hda⟩

theorem sorted_queueFold {prov : List String} {deps : List Dependency} :
    ∀ {q : List String}, q.Sorted (· < ·) →
      (deps.foldl
        (fun q d => if prov.contains d.name then q else insertSorted d.name q) q).Sorted
        (· < ·) := by
  induction deps with
  | nil => exact fun h => h
  | cons d ds ih =>
    intro q hq
    rw [List.foldl_cons]
    apply ih
    by_cases hc : prov.contains d.name
    · rw [if_pos hc]
      exact hq
    · rw [if_neg hc]
      exact sorted_insertSorted hq

theorem resolve_target_eq_of_lookup_some {byName : ByName} {providers : Providers}
    {t : String} {r : Repository} {pkg : DatabasePackage}
    (h : lookupPkg byName t = some (r, pkg)) :
    resolve_target byName providers t = .ok pkg := by
  unfold resolve_target
  rw [h]

theorem resolve_target_eq_of_none_none {byName : ByName} {providers : Providers}
    {t : String}
    (h₁ : lookupPkg byName t = none)
    (h₂ : (List.lookup t providers).bind List.head? = none) :
    resolve_target byName providers t = .error (.unresolvedTarget t) := by
  unfold resolve_target
  rw [h₁, h₂]

theorem resolve_target_eq_of_provider {byName : ByName} {providers : Providers}
    {t p : String}
    (h₁ : lookupPkg byName t = none)
    (h₂ : (List.lookup t providers).bind List.head? = some p) :
    resolve_target byName providers t = resolveProvider byName p := by
  unfold resolve_target
  rw [h₁, h₂]

theorem resolveProvider_eq_some {byName : ByName} {p : String} {r : Repository}
    {pkg : DatabasePackage} (h : lookupPkg byName p = some (r, pkg)) :
    resolveProvider byName p = .ok pkg := by
  unfold resolveProvider
  rw [h]

theorem resolveProvider_eq_none {byName : ByName} {p : String}
    (h : lookupPkg byName p = none) :
    resolveProvider byName p = .error (.noSuchPackage p) := by
  unfold resolveProvider
  rw [h]

theorem head_mem_providersLookup {byName : ByName} {t p : String}
    (hb : (List.lookup t (index_providers byName)).bind List.head? = some p) :
    p ∈ providersLookup (index_providers byName) t := by
  rw [providersLookup]
  cases hpl : List.lookup t (index_providers byName) with
  | none =>
    rw [hpl] at hb
    cases hb
  | some s =>
    rw [hpl] at hb
    simp only [Option.some_bind] at hb
    simp only [Option.getD_some]
    exact List.mem_of_mem_head? hb

theorem resolve_target_ok {byName : ByName}
    (hwf₁ : ∀ e ∈ byName, e.2.2.name = e.1) (hwf₂ : (byName.map Prod.fst).Nodup)
    {t : String} {pkg : DatabasePackage}
    (h : resolve_target byName (index_providers byName) t = .ok pkg) :
    (∃ r, (pkg.name, r, pkg) ∈ byName) ∧
      (t = pkg.name ∨ t ∈ pkg.provides.map Provide.name) := by
  cases hlk : lookupPkg byName t with
  | some rp =>
    obtain ⟨r, pkg₂⟩ := rp
    rw [resolve_target_eq_of_lookup_some hlk] at h
    simp only [Except.ok.injEq] at h
    rw [h] at hlk
    have hmem : (t, r, pkg) ∈ byName := lookup_mem hlk
    have hname : pkg.name = t := hwf₁ _ hmem
    exact ⟨⟨r, hname ▸ hmem⟩, .inl hname.symm⟩
  | none =>
    cases hb : (List.lookup t (index_providers byName)).bind List.head? with
    | none =>
      rw [resolve_target_eq_of_none_none hlk hb] at h
      cases h
    | some p =>
      rw [resolve_target_eq_of_provider hlk hb] at h
      cases hlk₂ : lookupPkg byName p with
      | none =>
        rw [resolveProvider_eq_none hlk₂] at h
        cases h
      | some rp =>
        obtain ⟨r, pkg₂⟩ := rp
        rw [resolveProvider_eq_some hlk₂] at h
        simp only [Except.ok.injEq] at h
        rw [h] at hlk₂
        have hmem : (p, r, pkg) ∈ byName := lookup_mem hlk₂
        have hname : pkg.name = p := hwf₁ _ hmem
        refine ⟨⟨r, hname ▸ hmem⟩, ?_⟩
        have hps : p ∈ providersLookup (index_providers byName) t :=
          head_mem_providersLookup hb
        obtain ⟨e, he, hea, heX⟩ := mem_providersLookup_index_providers.mp hps
        have hekey : e.1 = p := by rw [← hwf₁ e he, ← hea]
        have hee : e = (p, r, pkg) := by
          obtain ⟨k₁, v₁⟩ := e
          simp only at hekey
          subst hekey
          have := mem_unique_of_nodup_keys hwf₂ he hmem
          rw [this]
        subst hee
        simpa [hname] using heX

theorem resolve_target_error {byName : ByName}
    (hwf₁ : ∀ e ∈ byName, e.2.2.name = e.1)
    {t : String} {err : ResolveError}
    (h : resolve_target byName (index_providers byName) t = .error err) :
    err = .unresolvedTarget t ∧ lookupPkg byName t = none ∧
      providersLookup (index_providers byName) t = [] := by
  cases hlk : lookupPkg byName t with
  | some rp =>
    obtain ⟨r, pkg'⟩ := rp
    rw [resolve_target_eq_of_lookup_some hlk] at h
    cases h
  | none =>
    cases hb : (List.lookup t (index_providers byName)).bind List.head? with
    | none =>
      rw [resolve_target_eq_of_none_none hlk hb] at h
      simp only [Except.error.injEq] at h
      refine ⟨h.symm, rfl, ?_⟩
      rw [providersLookup]
      cases hpl : List.lookup t (index_providers byName) with
      | none => rfl
      | some s =>
        rw [hpl] at hb
        simp only [Option.some_bind] at hb
        cases s with
        | nil => rfl
        | cons x xs => cases hb
    | some p =>
      exfalso
      rw [resolve_target_eq_of_provider hlk hb] at h
      have hps : p ∈ providersLookup (index_providers byName) t :=
        head_mem_providersLookup hb
      obtain ⟨f, hf, hfa, hfX⟩ := mem_providersLookup_index_providers.mp hps
      have hkey : f.1 = p := by rw [← hwf₁ f hf, ← hfa]
      have hsome : (List.lookup p byName).isSome := by
        obtain ⟨k₁, v₁⟩ := f
        simp only at hkey
        subst hkey
        exact lookup_isSome_of_mem hf
      cases hlk₂ : lookupPkg byName p with
      | some rp =>
        obtain ⟨r, pkg'⟩ := rp
        rw [resolveProvider_eq_some hlk₂] at h
        cases h
      | none =>
        rw [lookupPkg] at hlk₂
        rw [hlk₂] at hsome
        cases hsome

theorem resolveLoop_zero {b : ByName} {p : Providers} {st : ResolverState}
    {q : List String} : resolveLoop b p 0 st q = none := rfl

theorem resolveLoop_succ_nil {b : ByName} {p : Providers} {fuel : Nat}
    {st : ResolverState} :
    resolveLoop b p (fuel + 1) st [] = some (.ok st.selected_packages) := rfl

theorem resolveLoop_succ_cons {b : ByName} {p : Providers} {fuel : Nat}
    {st : ResolverState} {t : String} {q : List String} :
    resolveLoop b p (fuel + 1) st (t :: q) =
      if st.provided_targets.contains t then resolveLoop b p fuel st q
      else
        match resolve_target b p t with
        | .error e => some (.error e)
        | .ok pkg =>
          resolveLoop b p fuel (add_package st pkg)
            (pkg.depends.foldl
              (fun q d =>
                if (add_package st pkg).provided_targets.contains d.name then q
                else insertSorted d.name q)
              q) := rfl

theorem resolveLoop_succ_cons_provided {b : ByName} {p : Providers} {fuel : Nat}
    {st : ResolverState} {t : String} {q : List String}
    (hc : st.provided_targets.contains t = true) :
    resolveLoop b p (fuel + 1) st (t :: q) = resolveLoop b p fuel st q := by
  rw [resolveLoop_succ_cons, if_pos hc]

theorem resolveLoop_succ_cons_error {b : ByName} {p : Providers} {fuel : Nat}
    {st : ResolverState} {t : String} {q : List String} {e : ResolveError}
    (hc : st.provided_targets.contains t = false)
    (hrt : resolve_target b p t = .error e) :
    resolveLoop b p (fuel + 1) st (t :: q) = some (.error e) := by
  rw [resolveLoop_succ_cons, if_neg (by simpa using hc), hrt]

theorem resolveLoop_succ_cons_ok {b : ByName} {p : Providers} {fuel : Nat}
    {st : ResolverState} {t : String} {q : List String} {pkg : DatabasePackage}
    (hc : st.provided_targets.contains t = false)
    (hrt : resolve_target b p t = .ok pkg) :
    resolveLoop b p (fuel + 1) st (t :: q) =
      resolveLoop b p fuel (add_package st pkg)
        (pkg.depends.foldl
          (fun q d =>
            if (add_package st pkg).provided_targets.contains d.name then q
            else insertSorted d.name q)
          q) := by
  rw [resolveLoop_succ_cons, if_neg (by simpa using hc), hrt]

theorem resolveLoop_selected_mono {byName : ByName} {providers : Providers} :
    ∀ {fuel : Nat} {st : ResolverState} {queue : List String} {sel : List String},
      resolveLoop byName providers fuel st queue = some (.ok sel) →
      ∀ a ∈ st.selected_packages, a ∈ sel := by
  intro fuel
  induction fuel with
  | zero =>
    intro st q sel h
    rw [resolveLoop_zero] at h
    cases h
  | succ fuel ih =>
    intro st q sel h a ha
    cases q with
    | nil =>
      rw [resolveLoop_succ_nil] at h
      simp only [Option.some.injEq, Except.ok.injEq] at h
      exact h ▸ ha
    | cons t q =>
      by_cases hc : st.provided_targets.contains t = true
      · rw [resolveLoop_succ_cons_provided hc] at h
        exact ih h a ha
      · have hc' : st.provided_targets.contains t = false := by simpa using hc
        cases hrt : resolve_target byName providers t with
        | error e =>
          rw [resolveLoop_succ_cons_error hc' hrt] at h
          simp at h
        | ok pkg =>
          rw [resolveLoop_succ_cons_ok hc' hrt] at h
          exact ih h a (mem_add_package_selected.mpr (.inr ha))

theorem resolveLoop_error_shape {byName : ByName}
    (hwf₁ : ∀ e ∈ byName, e.2.2.name = e.1) :
    ∀ {fuel : Nat} {st : ResolverState} {queue : List String} {err : ResolveError},
      resolveLoop byName (index_providers byName) fuel st queue = some (.error err) →
      ∃ n, err = .unresolvedTarget n ∧ lookupPkg byName n = none ∧
        providersLookup (index_providers byName) n = [] := by
  intro fuel
  induction fuel with
  | zero =>
    intro st q err h
    rw [resolveLoop_zero] at h
    cases h
  | succ fuel ih =>
    intro st q err h
    cases q with
    | nil =>
      rw [resolveLoop_succ_nil] at h
      simp at h
    | cons t q =>
      by_cases hc : st.provided_targets.contains t = true
      · rw [resolveLoop_succ_cons_provided hc] at h
        exact ih h
      · have hc' : st.provided_targets.contains t = false := by simpa using hc
        cases hrt : resolve_target byName (index_providers byName) t with
        | error e =>
          rw [resolveLoop_succ_cons_error hc' hrt] at h
          simp only [Option.some.injEq, Except.error.injEq] at h
          obtain ⟨he, hlk, hpl⟩ := resolve_target_error hwf₁ hrt
          exact ⟨t, h ▸ he, hlk, hpl⟩
        | ok pkg =>
          rw [resolveLoop_succ_cons_ok hc' hrt] at h
          exact ih h

theorem not_mem_provNames_of_no_providers {byName : ByName} {t : String}
    (hpt : providersLookup (index_providers byName) t = []) :
    t ∉ provNames byName := by
  intro hmem
  rw [provNames] at hmem
  obtain ⟨e, he, hname⟩ := List.mem_flatMap.mp hmem
  have : e.2.2.name ∈ providersLookup (index_providers byName) t := by
    apply mem_providersLookup_index_providers.mpr
    refine ⟨e, he, rfl, ?_⟩
    rcases List.mem_cons.mp hname with h | h
    · exact .inl h
    · exact .inr h
  rw [hpt] at this
  cases this

theorem no_providers_bind_head_eq_none {byName : ByName} {t : String}
    (hpt : providersLookup (index_providers byName) t = []) :
    (List.lookup t (index_providers byName)).bind List.head? = none := by
  rw [providersLookup] at hpt
  cases hpl : List.lookup t (index_providers byName) with
  | none => rfl
  | some s =>
    rw [hpl] at hpt
    simp only [Option.getD_some] at hpt
    subst hpt
    rfl

theorem resolveLoop_ok_no_stuck_target {byName : ByName}
    (hwf₁ : ∀ e ∈ byName, e.2.2.name = e.1) (hwf₂ : (byName.map Prod.fst).Nodup)
    {t : String}
    (hlkt : lookupPkg byName t = none)
    (hpt : providersLookup (index_providers byName) t = []) :
    ∀ {fuel : Nat} {st : ResolverState} {queue : List String} {sel : List String},
      (∀ a ∈ st.provided_targets, a ∈ provNames byName) →
      t ∈ queue →
      resolveLoop byName (index_providers byName) fuel st queue = some (.ok sel) →
      False := by
  intro fuel
  induction fuel with
  | zero =>
    intro st q sel _ _ h
    rw [resolveLoop_zero] at h
    cases h
  | succ fuel ih =>
    intro st q sel hprov htq h
    cases q with
    | nil => cases htq
    | cons t₁ q =>
      by_cases hc : st.provided_targets.contains t₁ = true
      · rw [resolveLoop_succ_cons_provided hc] at h
        rcases List.mem_cons.mp htq with h₁ | h₁
        · subst h₁
          have : t ∈ st.provided_targets := by simpa using hc
          exact not_mem_provNames_of_no_providers hpt (hprov t this)
        · exact ih hprov h₁ h
      · have hc' : st.provided_targets.contains t₁ = false := by simpa using hc
        by_cases ht₁ : t = t₁
        · subst ht₁
          have herr : resolve_target byName (index_providers byName) t =
              .error (.unresolvedTarget t) :=
            resolve_target_eq_of_none_none hlkt (no_providers_bind_head_eq_none hpt)
          rw [resolveLoop_succ_cons_error hc' herr] at h
          simp at h
        · cases hrt : resolve_target byName (index_providers byName) t₁ with
          | error e =>
            rw [resolveLoop_succ_cons_error hc' hrt] at h
            simp at h
          | ok pkg =>
            rw [resolveLoop_succ_cons_ok hc' hrt] at h
            obtain ⟨⟨r, hr⟩, _⟩ := resolve_target_ok hwf₁ hwf₂ hrt
            have hprov' : ∀ a ∈ (add_package st pkg).provided_targets,
                a ∈ provNames byName := by
              intro a ha
              rcases mem_add_package_provided.mp ha with h₁ | h₁ | h₁
              · subst h₁
                rw [provNames]
                exact List.mem_flatMap.mpr ⟨(pkg.name, r, pkg), hr,
                  List.mem_cons_self _ _⟩
              · rw [provNames]
                exact List.mem_flatMap.mpr ⟨(pkg.name, r, pkg), hr,
                  List.mem_cons_of_mem _ h₁⟩
              · exact hprov a h₁
            have htq' : t ∈ q := by
              rcases List.mem_cons.mp htq with h₁ | h₁
              · exact absurd h₁ ht₁
              · exact h₁
            exact ih hprov' (mem_queueFold_of_mem htq') h

theorem mem_provNames_of_entry {byName : ByName} {r : Repository}
    {pkg : DatabasePackage} (hr : (pkg.name, r, pkg) ∈ byName) {a : String}
    (ha : a = pkg.name ∨ a ∈ pkg.provides.map Provide.name) : a ∈ provNames byName := by
  rw [provNames]
  refine List.mem_flatMap.mpr ⟨(pkg.name, r, pkg), hr, ?_⟩
  rcases ha with h | h
  · subst h
    exact List.mem_cons_self _ _
  · exact List.mem_cons_of_mem _ h

theorem resolveLoop_total {byName : ByName}
    (hwf₁ : ∀ e ∈ byName, e.2.2.name = e.1) (hwf₂ : (byName.map Prod.fst).Nodup)
    (QS : Finset String) (hdep : ∀ a ∈ depNames byName, a ∈ QS) :
    ∀ (fuel : Nat) (st : ResolverState) (queue : List String),
      queue.Sorted (· < ·) → (∀ a ∈ queue, a ∈ QS) →
      (∀ a ∈ st.provided_targets, a ∈ provNames byName) →
      (QS.card + 1) *
            ((provNames byName).toFinset \ st.provided_targets.toFinset).card
          + queue.length < fuel →
      (resolveLoop byName (index_providers byName) fuel st queue).isSome := by
  intro fuel
  induction fuel with
  | zero =>
    intro st q _ _ _ hμ
    omega
  | succ fuel ih =>
    intro st q hsort hq hprov hμ
    cases q with
    | nil =>
      rw [resolveLoop_succ_nil]
      rfl
    | cons t rest =>
      by_cases hc : st.provided_targets.contains t = true
      · rw [resolveLoop_succ_cons_provided hc]
        apply ih st rest (List.sorted_cons.mp hsort).2
          (fun a ha => hq a (List.mem_cons_of_mem _ ha)) hprov
        simp only [List.length_cons] at hμ
        omega
      · have hc' : st.provided_targets.contains t = false := by simpa using hc
        have htnotprov : t ∉ st.provided_targets := by simpa using hc
        cases hrt : resolve_target byName (index_providers byName) t with
        | error e =>
          rw [resolveLoop_succ_cons_error hc' hrt]
          rfl
        | ok pkg =>
          rw [resolveLoop_succ_cons_ok hc' hrt]
          obtain ⟨⟨r, hr⟩, htp⟩ := resolve_target_ok hwf₁ hwf₂ hrt
          have htprov' : t ∈ (add_package st pkg).provided_targets := by
            apply mem_add_package_provided.mpr
            rcases htp with h | h
            · exact .inl h
            · exact .inr (.inl h)
          have hprovsub : ∀ a ∈ st.provided_targets,
              a ∈ (add_package st pkg).provided_targets := fun a ha =>
            mem_add_package_provided.mpr (.inr (.inr ha))
          have hprov' : ∀ a ∈ (add_package st pkg).provided_targets,
              a ∈ provNames byName := by
            intro a ha
            rcases mem_add_package_provided.mp ha with h | h | h
            · exact mem_provNames_of_entry hr (.inl h)
            · exact mem_provNames_of_entry hr (.inr h)
            · exact hprov a h
          apply ih _ _ (sorted_queueFold (List.sorted_cons.mp hsort).2) ?_ hprov'
          · -- measure decrease
            have htPK : t ∈ (provNames byName).toFinset :=
              List.mem_toFinset.mpr (mem_provNames_of_entry hr htp)
            have htdiff : t ∈ (provNames byName).toFinset \ st.provided_targets.toFinset :=
              Finset.mem_sdiff.mpr ⟨htPK, fun hmem => htnotprov (List.mem_toFinset.mp hmem)⟩
            have hsub : (provNames byName).toFinset \
                  (add_package st pkg).provided_targets.toFinset ⊆
                ((provNames byName).toFinset \ st.provided_targets.toFinset).erase t := by
              intro x hx
              obtain ⟨hx₁, hx₂⟩ := Finset.mem_sdiff.mp hx
              refine Finset.mem_erase.mpr ⟨?_, Finset.mem_sdiff.mpr ⟨hx₁, ?_⟩⟩
              · intro hxt
                exact hx₂ (hxt ▸ List.mem_toFinset.mpr htprov')
              · intro hxm
                exact hx₂ (List.mem_toFinset.mpr (hprovsub x (List.mem_toFinset.mp hxm)))
            have hc1 : ((provNames byName).toFinset \
                  (add_package st pkg).provided_targets.toFinset).card + 1 ≤
                ((provNames byName).toFinset \ st.provided_targets.toFinset).card := by
              have h₁ := Finset.card_le_card hsub
              rw [Finset.card_erase_of_mem htdiff] at h₁
              have h₂ : 0 < ((provNames byName).toFinset \
                  st.provided_targets.toFinset).card := Finset.card_pos.mpr ⟨t, htdiff⟩
              omega
            have hqlen : (pkg.depends.foldl
                (fun q d =>
                  if (add_package st pkg).provided_targets.contains d.name then q
                  else insertSorted d.name q) rest).length ≤ QS.card := by
              have hnd : (pkg.depends.foldl
                  (fun q d =>
                    if (add_package st pkg).provided_targets.contains d.name then q
                    else insertSorted d.name q) rest).Nodup :=
                (sorted_queueFold (List.sorted_cons.mp hsort).2).nodup
              have hss : (pkg.depends.foldl
                  (fun q d =>
                    if (add_package st pkg).provided_targets.contains d.name then q
                    else insertSorted d.name q) rest).toFinset ⊆ QS := by
                intro a ha
                rcases mem_queueFold_sub (List.mem_toFinset.mp ha) with h | ⟨d, hd, hda⟩
                · exact hq a (List.mem_cons_of_mem _ h)
                · apply hdep
                  rw [depNames]
                  exact List.mem_flatMap.mpr ⟨(pkg.name, r, pkg), hr,
                    hda ▸ List.mem_map_of_mem Dependency.name hd⟩
              calc (pkg.depends.foldl
                  (fun q d =>
                    if (add_package st pkg).provided_targets.contains d.name then q
                    else insertSorted d.name q) rest).length
                  = _ := (List.toFinset_card_of_nodup hnd).symm
                _ ≤ QS.card := Finset.card_le_card hss
            have hmul : (QS.card + 1) *
                  (((provNames byName).toFinset \
                    (add_package st pkg).provided_targets.toFinset).card + 1) ≤
                (QS.card + 1) *
                  ((provNames byName).toFinset \ st.provided_targets.toFinset).card :=
              Nat.mul_le_mul_left _ hc1
            rw [Nat.mul_add, Nat.mul_one] at hmul
            simp only [List.length_cons] at hμ
            omega
          · intro a ha
            rcases mem_queueFold_sub ha with h | ⟨d, hd, hda⟩
            · exact hq a (List.mem_cons_of_mem _ h)
            · apply hdep
              rw [depNames]
              exact List.mem_flatMap.mpr ⟨(pkg.name, r, pkg), hr,
                hda ▸ List.mem_map_of_mem Dependency.name hd⟩

theorem resolveInitStep_eq_some {byName : ByName} {acc : ResolverState × List String}
    {t : String} {r : Repository} {pkg : DatabasePackage}
    (h : lookupPkg byName t = some (r, pkg)) :
    resolveInitStep byName acc t =
      (add_package acc.1 pkg,
        pkg.depends.foldl (fun q d => insertSorted d.name q) acc.2) := by
  unfold resolveInitStep
  rw [h]

theorem resolveInitStep_eq_none {byName : ByName} {acc : ResolverState × List String}
    {t : String} (h : lookupPkg byName t = none) :
    resolveInitStep byName acc t = (acc.1, insertSorted t acc.2) := by
  unfold resolveInitStep
  rw [h]

theorem initFold_queue_sorted {byName : ByName} :
    ∀ (l : List String) (acc : ResolverState × List String), acc.2.Sorted (· < ·) →
      ((l.foldl (resolveInitStep byName) acc).2).Sorted (· < ·) := by
  intro l
  induction l with
  | nil => exact fun acc h => h
  | cons t l ih =>
    intro acc hacc
    rw [List.foldl_cons]
    apply ih
    cases hlk : lookupPkg byName t with
    | some rp =>
      obtain ⟨r, pkg⟩ := rp
      rw [resolveInitStep_eq_some hlk]
      exact sorted_foldl_insertSorted Dependency.name _ _ hacc
    | none =>
      rw [resolveInitStep_eq_none hlk]
      exact sorted_insertSorted hacc

theorem initFold_queue_bound {byName : ByName} {S : String → Prop}
    (hdep : ∀ a ∈ depNames byName, S a) :
    ∀ (l : List String) (acc : ResolverState × List String),
      (∀ t ∈ l, S t) → (∀ a ∈ acc.2, S a) →
      ∀ a ∈ (l.foldl (resolveInitStep byName) acc).2, S a := by
  intro l
  induction l with
  | nil => exact fun acc _ h => h
  | cons t l ih =>
    intro acc hl hacc
    rw [List.foldl_cons]
    apply ih _ (fun t' ht' => hl t' (List.mem_cons_of_mem _ ht'))
    cases hlk : lookupPkg byName t with
    | some rp =>
      obtain ⟨r, pkg⟩ := rp
      rw [resolveInitStep_eq_some hlk]
      intro a ha
      rcases (mem_foldl_insertSorted Dependency.name _ _).mp ha with ⟨d, hd, hda⟩ | h
      · apply hdep
        rw [depNames]
        exact List.mem_flatMap.mpr ⟨(t, r, pkg), lookup_mem hlk,
          hda ▸ List.mem_map_of_mem Dependency.name hd⟩
      · exact hacc a h
    | none =>
      rw [resolveInitStep_eq_none hlk]
      intro a ha
      rcases mem_insertSorted.mp ha with h | h
      · exact h ▸ hl t (List.mem_cons_self _ _)
      · exact hacc a h

theorem initFold_provided_sub {byName : ByName}
    (hwf₁ : ∀ e ∈ byName, e.2.2.name = e.1) :
    ∀ (l : List String) (acc : ResolverState × List String),
      (∀ a ∈ acc.1.provided_targets, a ∈ provNames byName) →
      ∀ a ∈ (l.foldl (resolveInitStep byName) acc).1.provided_targets,
        a ∈ provNames byName := by
  intro l
  induction l with
  | nil => exact fun acc h => h
  | cons t l ih =>
    intro acc hacc
    rw [List.foldl_cons]
    apply ih
    cases hlk : lookupPkg byName t with
    | some rp =>
      obtain ⟨r, pkg⟩ := rp
      rw [resolveInitStep_eq_some hlk]
      intro a ha
      have hmem : (t, r, pkg) ∈ byName := lookup_mem hlk
      have hname : pkg.name = t := hwf₁ _ hmem
      have hentry : (pkg.name, r, pkg) ∈ byName := hname ▸ hmem
      rcases mem_add_package_provided.mp ha with h | h | h
      · exact mem_provNames_of_entry hentry (.inl h)
      · exact mem_provNames_of_entry hentry (.inr h)
      · exact hacc a h
    | none =>
      rw [resolveInitStep_eq_none hlk]
      exact hacc

theorem initFold_queue_mono {byName : ByName} :
    ∀ (l : List String) (acc : ResolverState × List String) (a : String),
      a ∈ acc.2 → a ∈ (l.foldl (resolveInitStep byName) acc).2 := by
  intro l
  induction l with
  | nil => exact fun acc a h => h
  | cons t l ih =>
    intro acc a ha
    rw [List.foldl_cons]
    apply ih
    cases hlk : lookupPkg byName t with
    | some rp =>
      obtain ⟨r, pkg⟩ := rp
      rw [resolveInitStep_eq_some hlk]
      exact (mem_foldl_insertSorted Dependency.name _ _).mpr (.inr ha)
    | none =>
      rw [resolveInitStep_eq_none hlk]
      exact mem_insertSorted.mpr (.inr ha)

theorem initFold_queue_insert {byName : ByName} :
    ∀ (l : List String) (acc : ResolverState × List String) (t : String),
      t ∈ l → lookupPkg byName t = none →
      t ∈ (l.foldl (resolveInitStep byName) acc).2 := by
  intro l
  induction l with
  | nil =>
    intro acc t ht
    cases ht
  | cons t₁ l ih =>
    intro acc t ht hlkt
    rw [List.foldl_cons]
    rcases List.mem_cons.mp ht with h | h
    · subst h
      apply initFold_queue_mono
      rw [resolveInitStep_eq_none hlkt]
      exact mem_insertSorted.mpr (.inl rfl)
    · exact ih _ t h hlkt

theorem initFold_selected_mono {byName : ByName} :
    ∀ (l : List String) (acc : ResolverState × List String) (a : String),
      a ∈ acc.1.selected_packages →
      a ∈ (l.foldl (resolveInitStep byName) acc).1.selected_packages := by
  intro l
  induction l with
  | nil => exact fun acc a h => h
  | cons t l ih =>
    intro acc a ha
    rw [List.foldl_cons]
    apply ih
    cases hlk : lookupPkg byName t with
    | some rp =>
      obtain ⟨r, pkg⟩ := rp
      rw [resolveInitStep_eq_some hlk]
      exact mem_add_package_selected.mpr (.inr ha)
    | none =>
      rw [resolveInitStep_eq_none hlk]
      exact ha

theorem initFold_selected_insert {byName : ByName}
    (hwf₁ : ∀ e ∈ byName, e.2.2.name = e.1) :
    ∀ (l : List String) (acc : ResolverState × List String) (t : String),
      t ∈ l → (lookupPkg byName t).isSome →
      t ∈ (l.foldl (resolveInitStep byName) acc).1.selected_packages := by
  intro l
  induction l with
  | nil =>
    intro acc t ht
    cases ht
  | cons t₁ l ih =>
    intro acc t ht hlkt
    rw [List.foldl_cons]
    rcases List.mem_cons.mp ht with h | h
    · subst h
      cases hlk : lookupPkg byName t with
      | none =>
        rw [hlk] at hlkt
        cases hlkt
      | some rp =>
        obtain ⟨r, pkg⟩ := rp
        apply initFold_selected_mono
        rw [resolveInitStep_eq_some hlk]
        have hname : pkg.name = t := hwf₁ _ (lookup_mem hlk)
        exact mem_add_package_selected.mpr (.inl hname.symm)
    · exact ih _ t h hlkt

/-! Well-formedness of the built by-name index, and totality of `resolve` on it. -/

theorem byName_names_eq_keys (repos : List (Repository × List DatabasePackage)) :
    ∀ e ∈ (index_packages_by_name repos).1, e.2.2.name = e.1 := by
  rw [index_packages_by_name, index_eq_foldl_flatten]
  apply indexFold_names_eq_keys
  intro e he
  cases he

theorem byName_keys_nodup (repos : List (Repository × List DatabasePackage)) :
    ((index_packages_by_name repos).1.map Prod.fst).Nodup := by
  rw [index_packages_by_name, index_eq_foldl_flatten]
  apply indexFold_keys_nodup
  simp

theorem resolve_isSome {byName : ByName}
    (hwf₁ : ∀ e ∈ byName, e.2.2.name = e.1) (hwf₂ : (byName.map Prod.fst).Nodup)
    (targets : List String) : (resolve byName targets).isSome := by
  show (resolveLoop byName (index_providers byName) (resolveFuel byName targets)
    (resolveInit byName targets).1 (resolveInit byName targets).2).isSome
  have hq : (targets ++ depNames byName).length =
      (targets ++ depNames byName).length := rfl
  apply resolveLoop_total hwf₁ hwf₂ ((targets ++ depNames byName).toFinset)
    (fun a ha => List.mem_toFinset.mpr (List.mem_append_right _ ha))
  · exact initFold_queue_sorted _ _ (by simp)
  · apply initFold_queue_bound
      (fun a ha => List.mem_toFinset.mpr (List.mem_append_right _ ha))
    · exact fun t ht => List.mem_toFinset.mpr (List.mem_append_left _ ht)
    · simp
  · apply initFold_provided_sub hwf₁
    simp [resolveInit]
  · have hfuel : resolveFuel byName targets =
        ((targets ++ depNames byName).length + 1) * ((provNames byName).length + 1)
          + (targets ++ depNames byName).length + 1 := rfl
    rw [hfuel]
    have h₁ : (targets ++ depNames byName).toFinset.card ≤
        (targets ++ depNames byName).length := List.toFinset_card_le _
    have h₂ : ((provNames byName).toFinset \
          (resolveInit byName targets).1.provided_targets.toFinset).card ≤
        (provNames byName).length :=
      le_trans (Finset.card_le_card (Finset.sdiff_subset))
        (List.toFinset_card_le _)
    have h₃ : (resolveInit byName targets).2.length ≤
        (targets ++ depNames byName).toFinset.card := by
      have hnd : (resolveInit byName targets).2.Nodup :=
        (initFold_queue_sorted _ _ (by simp)).nodup
      have hss : (resolveInit byName targets).2.toFinset ⊆
          (targets ++ depNames byName).toFinset := by
        intro a ha
        apply initFold_queue_bound
          (S := fun a => a ∈ (targets ++ depNames byName).toFinset)
          (fun a ha => List.mem_toFinset.mpr (List.mem_append_right _ ha)) _ _
          (fun t ht => List.mem_toFinset.mpr (List.mem_append_left _ ht))
          (by simp) a (List.mem_toFinset.mp ha)
      rw [← List.toFinset_card_of_nodup hnd]
      exact Finset.card_le_card hss
    have hmul₁ : ((targets ++ depNames byName).toFinset.card + 1) *
          ((provNames byName).toFinset \
            (resolveInit byName targets).1.provided_targets.toFinset).card ≤
        ((targets ++ depNames byName).toFinset.card + 1) *
          (provNames byName).length :=
      Nat.mul_le_mul_left _ h₂
    have hmul₂ : ((targets ++ depNames byName).toFinset.card + 1) *
          (provNames byName).length ≤
        ((targets ++ depNames byName).length + 1) * (provNames byName).length :=
      Nat.mul_le_mul_right _ (by omega)
    have hexp : ((targets ++ depNames byName).length + 1) *
          ((provNames byName).length + 1) =
        ((targets ++ depNames byName).length + 1) * (provNames byName).length
          + ((targets ++ depNames byName).length + 1) := by
      ring
    omega

/-! Lemmas about string partitioning, for the parser claims. -/

theorem splitFirst_eq_none_of_not_mem {c : Char} :
    ∀ {l : List Char}, c ∉ l → splitFirst c l = none
  | [], _ => rfl
  | x :: xs, h => by
    have hx : ¬ x = c := fun hxc => h (hxc ▸ List.mem_cons_self _ _)
    have hxs : c ∉ xs := fun hm => h (List.mem_cons_of_mem _ hm)
    rw [splitFirst, if_neg hx, splitFirst_eq_none_of_not_mem hxs]

theorem splitFirst_some_of_mem {c : Char} :
    ∀ {l : List Char}, c ∈ l →
      ∃ a b, splitFirst c l = some (a, b) ∧ c ∉ a
  | [], h => absurd h (List.not_mem_nil c)
  | x :: xs, h => by
    by_cases hx : x = c
    · exact ⟨[], xs, by rw [splitFirst, if_pos hx], List.not_mem_nil c⟩
    · have hxs : c ∈ xs := by
        rcases List.mem_cons.mp h with h₁ | h₁
        · exact absurd h₁.symm hx
        · exact h₁
      obtain ⟨a, b, hs, hna⟩ := splitFirst_some_of_mem hxs
      refine ⟨x :: a, b, ?_, ?_⟩
      · rw [splitFirst, if_neg hx, hs]
      · intro hm
        rcases List.mem_cons.mp hm with h₁ | h₁
        · exact hx h₁.symm
        · exact hna h₁

theorem partition_eq_none_of_not_mem {s : String} {c : Char} (h : c ∉ s.toList) :
    partition s c = none := by
  rw [partition, splitFirst_eq_none_of_not_mem h]

/-- C9: `parse_pkgname_pkgver` can never succeed: an input without `-` fails with
"missing pkver", and an input containing `-` fails with "missing pkgrel", because the
second split is applied to the prefix before the first `-`, which itself contains
no `-`; in all cases a `ParseError` is returned and never a (name, version) pair. -/
theorem claims_C9_parse_pkgname_pkgver_always_errors (s : String) :
    ((¬ '-' ∈ s.toList) →
      parse_pkgname_pkgver s = .error ⟨"missing pkver", some s⟩) ∧
    (('-' ∈ s.toList) →
      parse_pkgname_pkgver s = .error ⟨"missing pkgrel", some s⟩) ∧
    ∃ e, parse_pkgname_pkgver s = .error e := by
  have hmain₁ : (¬ '-' ∈ s.toList) →
      parse_pkgname_pkgver s = .error ⟨"missing pkver", some s⟩ := by
    intro h
    unfold parse_pkgname_pkgver
    rw [partition_eq_none_of_not_mem h]
  have hmain₂ : ('-' ∈ s.toList) →
      parse_pkgname_pkgver s = .error ⟨"missing pkgrel", some s⟩ := by
    intro h
    obtain ⟨a, b, hs, hna⟩ := splitFirst_some_of_mem h
    have hpart : partition s '-' = some (⟨a⟩, ⟨b⟩) := by
      rw [partition, hs]
    have hpart₂ : partition ⟨a⟩ '-' = none :=
      partition_eq_none_of_not_mem (by simpa [String.toList] using hna)
    unfold parse_pkgname_pkgver
    rw [hpart]
    simp only [hpart₂]
  refine ⟨hmain₁, hmain₂, ?_⟩
  by_cases h : '-' ∈ s.toList
  · exact ⟨_, hmain₂ h⟩
  · exact ⟨_, hmain₁ h⟩

/-- Witness for C9 at the concrete input "a-b", which contains a dash. -/
theorem claims_C9_witness :
    parse_pkgname_pkgver "a-b" = .error ⟨"missing pkgrel", some "a-b"⟩ :=
  (claims_C9_parse_pkgname_pkgver_always_errors "a-b").2.1 (by decide)

/-- C8: `parse_depends "foo>=1.2-3"` yields name "foo" with a `greaterEqual`
constraint against version (epoch 0, upstream "1.2", release "3"), and
`parse_depends "foo"` yields name "foo" with no constraint. -/
theorem claims_C8_parse_depends_examples :
    parse_depends "foo>=1.2-3" =
      ("foo", some ⟨⟨0, "1.2", some "3"⟩, .greaterEqual⟩) ∧
    parse_depends "foo" = ("foo", none) := by
  constructor
  · rfl
  · rfl

/-! Concrete example repositories used by the claim witnesses. -/

/-- Example repository named r1. -/
def exRepoA : Repository := ⟨"r1", "https://mirror.example/r1/r1.db"⟩

/-- Example repository named r2. -/
def exRepoB : Repository := ⟨"r2", "https://mirror.example/r2/r2.db"⟩

/-- Example dependency-free package named a. -/
def exPkgA : DatabasePackage := ⟨"a", "a.pkg", 1, "aa", [], []⟩

/-- Example package list with only the package a. -/
def exReposA : List (Repository × List DatabasePackage) := [(exRepoA, [exPkgA])]

/-- Example package foo from r1, providing nothing. -/
def exPkgFooA : DatabasePackage := ⟨"foo", "f1", 1, "x1", [], []⟩

/-- Example package also named foo, from r2, providing bar. -/
def exPkgFooB : DatabasePackage := ⟨"foo", "f2", 1, "x2", [], [⟨"bar", none⟩]⟩

/-- Example input with a duplicate package name across two repositories. -/
def exReposDup : List (Repository × List DatabasePackage) :=
  [(exRepoA, [exPkgFooA]), (exRepoB, [exPkgFooB])]

/-- Example package p1 providing the virtual capability virt. -/
def exPkgP1 : DatabasePackage := ⟨"p1", "p1.pkg", 1, "y1", [], [⟨"virt", none⟩]⟩

/-- Example package p2 also providing the virtual capability virt. -/
def exPkgP2 : DatabasePackage := ⟨"p2", "p2.pkg", 1, "y2", [], [⟨"virt", none⟩]⟩

/-- Example input with two providers of the same virtual capability. -/
def exReposVirt : List (Repository × List DatabasePackage) :=
  [(exRepoA, [exPkgP1, exPkgP2])]

/-! The resolver claims. -/

/-- C5: for every package index built from per-repository record lists and every target
list, `resolve` terminates with a result (a selection or an error): the explicit fuel
`resolveFuel`, an upper bound on the loop measure, is never exhausted, because the
provided set only grows and the queue only admits names not yet provided. -/
theorem claims_C5_resolve_terminates
    (repos : List (Repository × List DatabasePackage)) (targets : List String) :
    (resolve (index_packages_by_name repos).1 targets).isSome :=
  resolve_isSome (byName_names_eq_keys repos) (byName_keys_nodup repos) targets

/-- C1: every explicitly requested target that names a real package of the index is
contained in the selection returned by `resolve` (whenever `resolve` returns a
selection), even when some other selected package provides the same name. -/
theorem claims_C1_explicit_targets_selected
    (repos : List (Repository × List DatabasePackage)) (targets : List String)
    (t : String) (sel : List String)
    (ht : t ∈ targets)
    (hreal : (lookupPkg (index_packages_by_name repos).1 t).isSome)
    (hres : resolve (index_packages_by_name repos).1 targets = some (.ok sel)) :
    t ∈ sel := by
  have h₀ : t ∈ (resolveInit (index_packages_by_name repos).1
      targets).1.selected_packages :=
    initFold_selected_insert (byName_names_eq_keys repos) _ _ t ht hreal
  have hres' : resolveLoop (index_packages_by_name repos).1
      (index_providers (index_packages_by_name repos).1)
      (resolveFuel (index_packages_by_name repos).1 targets)
      (resolveInit (index_packages_by_name repos).1 targets).1
      (resolveInit (index_packages_by_name repos).1 targets).2 = some (.ok sel) := hres
  exact resolveLoop_selected_mono hres' t h₀

/-- Witness for C1: requesting the real package a selects it. -/
theorem claims_C1_witness :
    resolve (index_packages_by_name exReposA).1 ["a"] = some (.ok ["a"]) ∧
      "a" ∈ ["a"] :=
  ⟨by rfl, claims_C1_explicit_targets_selected exReposA ["a"] "a" ["a"]
    (by decide) (by rfl) (by rfl)⟩

/-- C4: (a) whenever `resolve` returns an error, that error is `UnresolvedTarget n` for
a name `n` that neither names a real package nor has any provider; (b) a requested
target that neither names a real package nor has any provider forces `resolve` to
return such an error rather than a selection. -/
theorem claims_C4_unresolved_target
    (repos : List (Repository × List DatabasePackage)) (targets : List String) :
    (∀ err, resolve (index_packages_by_name repos).1 targets = some (.error err) →
      ∃ n, err = .unresolvedTarget n ∧
        lookupPkg (index_packages_by_name repos).1 n = none ∧
        providersLookup (index_providers (index_packages_by_name repos).1) n = []) ∧
    (∀ t ∈ targets, lookupPkg (index_packages_by_name repos).1 t = none →
      providersLookup (index_providers (index_packages_by_name repos).1) t = [] →
      ∃ err, resolve (index_packages_by_name repos).1 targets = some (.error err)) := by
  constructor
  · intro err hres
    have hres' : resolveLoop (index_packages_by_name repos).1
        (index_providers (index_packages_by_name repos).1)
        (resolveFuel (index_packages_by_name repos).1 targets)
        (resolveInit (index_packages_by_name repos).1 targets).1
        (resolveInit (index_packages_by_name repos).1 targets).2 =
          some (.error err) := hres
    exact resolveLoop_error_shape (byName_names_eq_keys repos) hres'
  · intro t ht hlkt hpt
    have hsome := resolve_isSome (byName_names_eq_keys repos)
      (byName_keys_nodup repos) targets
    cases hres : resolve (index_packages_by_name repos).1 targets with
    | none =>
      rw [hres] at hsome
      cases hsome
    | some r =>
      cases r with
      | error err => exact ⟨err, rfl⟩
      | ok sel =>
        exfalso
        have hres' : resolveLoop (index_packages_by_name repos).1
            (index_providers (index_packages_by_name repos).1)
            (resolveFuel (index_packages_by_name repos).1 targets)
            (resolveInit (index_packages_by_name repos).1 targets).1
            (resolveInit (index_packages_by_name repos).1 targets).2 =
              some (.ok sel) := hres
        apply resolveLoop_ok_no_stuck_target (byName_names_eq_keys repos)
          (byName_keys_nodup repos) hlkt hpt
          (initFold_provided_sub (byName_names_eq_keys repos) _ _ (by simp))
          (initFold_queue_insert _ _ t ht hlkt) hres'

/-- Witness for C4: requesting the unknown name zzz against an index knowing only the
package a yields an `UnresolvedTarget` error. -/
theorem claims_C4_witness :
    ∃ err, resolve (index_packages_by_name exReposA).1 ["zzz"] =
      some (.error err) :=
  (claims_C4_unresolved_target exReposA ["zzz"]).2 "zzz" (by decide) (by rfl) (by rfl)

/-- C3: the by-name index has no duplicate keys; looking up any name returns exactly the
first matching record of the repository-ordered flattened input (so the earlier-listed
repository wins); every input record is either retained or reported as a duplicate (the
build is total and never fails); and each duplicate report names the repository of the
retained record. -/
theorem claims_C3_by_name_first_wins
    (repos : List (Repository × List DatabasePackage)) :
    (((index_packages_by_name repos).1.map Prod.fst).Nodup) ∧
    (∀ name, List.lookup name (index_packages_by_name repos).1
        = (flattenRepos repos).find? (fun e => e.2.name == name)) ∧
    ((index_packages_by_name repos).1.length + (index_packages_by_name repos).2.length
        = (flattenRepos repos).length) ∧
    (∀ d ∈ (index_packages_by_name repos).2, dupOk (index_packages_by_name repos).1 d) := by
  refine ⟨byName_keys_nodup repos, ?_, ?_, ?_⟩
  · intro name
    rw [index_packages_by_name, index_eq_foldl_flatten, lookup_indexFold]
    simp
  · rw [index_packages_by_name, index_eq_foldl_flatten, indexFold_length]
    simp
  · rw [index_packages_by_name, index_eq_foldl_flatten]
    apply indexFold_dups
    intro d hd
    cases hd

/-- Witness for C3: with the duplicate name foo in r1 and r2, the single duplicate
report names r1 as the retained repository. -/
theorem claims_C3_witness :
    dupOk (index_packages_by_name exReposDup).1 ⟨"foo", "r1", "r2"⟩ :=
  (claims_C3_by_name_first_wins exReposDup).2.2.2 ⟨"foo", "r1", "r2"⟩ (by decide)

/-- Counterexample to C2 as stated: the input record foo of r2 declares the capability
bar, yet the provider map built by the code has no provider at all for bar, because
that record was dropped as a by-name duplicate before `index_providers` ran. -/
theorem claims_C2_counterexample :
    (∃ rp ∈ flattenRepos exReposDup, rp.2.name = "foo" ∧
      "bar" ∈ rp.2.provides.map Provide.name) ∧
    providersLookup (index_providers (index_packages_by_name exReposDup).1) "bar"
      = [] := by
  constructor
  · exact ⟨(exRepoB, exPkgFooB), by decide, by decide⟩
  · rfl

/-- C2 amended: the provider map maps each capability name X to exactly the set of
names of the records retained in the by-name index (after duplicate dropping) that are
literally named X or declare X in their provides list; records dropped as duplicates do
not contribute. -/
theorem claims_C2_providers_exact
    (repos : List (Repository × List DatabasePackage)) (X p : String) :
    p ∈ providersLookup (index_providers (index_packages_by_name repos).1) X ↔
      ∃ e ∈ (index_packages_by_name repos).1, p = e.2.2.name ∧
        (X = e.2.2.name ∨ X ∈ e.2.2.provides.map Provide.name) :=
  mem_providersLookup_index_providers

/-- C10: when a target is not a real package and its provider set has more than one
element, `resolve_target` succeeds with the package whose name is the least element of
the provider set (lexicographically smallest), a choice determined by the provider set
alone. -/
theorem claims_C10_provider_choice_minimal
    (repos : List (Repository × List DatabasePackage)) (t : String)
    (hlk : lookupPkg (index_packages_by_name repos).1 t = none)
    (hcard : 1 < (providersLookup
      (index_providers (index_packages_by_name repos).1) t).length) :
    ∃ pkg, resolve_target (index_packages_by_name repos).1
        (index_providers (index_packages_by_name repos).1) t = .ok pkg ∧
      pkg.name ∈ providersLookup
        (index_providers (index_packages_by_name repos).1) t ∧
      ∀ x ∈ providersLookup (index_providers (index_packages_by_name repos).1) t,
        pkg.name ≤ x := by
  cases hpl : List.lookup t (index_providers (index_packages_by_name repos).1) with
  | none =>
    rw [providersLookup, hpl] at hcard
    simp at hcard
  | some s =>
    have hsval : providersLookup (index_providers (index_packages_by_name repos).1) t
        = s := by
      rw [providersLookup, hpl]
      rfl
    cases s with
    | nil =>
      rw [hsval] at hcard
      simp at hcard
    | cons p rest =>
      have hb : (List.lookup t
          (index_providers (index_packages_by_name repos).1)).bind List.head?
          = some p := by
        rw [hpl]
        rfl
      have hps : p ∈ providersLookup
          (index_providers (index_packages_by_name repos).1) t := by
        rw [hsval]
        exact List.mem_cons_self _ _
      obtain ⟨e, he, hea, heX⟩ := mem_providersLookup_index_providers.mp hps
      have hekey : e.1 = p := by
        rw [← byName_names_eq_keys repos e he, ← hea]
      have hsome : (List.lookup p (index_packages_by_name repos).1).isSome := by
        obtain ⟨k₁, v₁⟩ := e
        simp only at hekey
        subst hekey
        exact lookup_isSome_of_mem he
      cases hlk₂ : lookupPkg (index_packages_by_name repos).1 p with
      | none =>
        rw [lookupPkg] at hlk₂
        rw [hlk₂] at hsome
        cases hsome
      | some rp =>
        obtain ⟨r, pkg⟩ := rp
        have hname : pkg.name = p :=
          byName_names_eq_keys repos _ (lookup_mem hlk₂)
        refine ⟨pkg, ?_, ?_, ?_⟩
        · rw [resolve_target_eq_of_provider hlk hb,
            resolveProvider_eq_some hlk₂]
        · rw [hsval, hname]
          exact List.mem_cons_self _ _
        · intro x hx
          have hsorted : (providersLookup
              (index_providers (index_packages_by_name repos).1) t).Sorted
              (· < ·) := providersLookup_sorted _ _
          rw [hsval] at hsorted hx
          rw [hname]
          rcases List.mem_cons.mp hx with h | h
          · exact h ▸ le_refl _
          · exact le_of_lt ((List.sorted_cons.mp hsorted).1 x h)

/-- Witness for C10: the capability virt has the two providers p1 and p2, and the
resolver chooses p1, the lexicographically smallest. -/
theorem claims_C10_witness :
    ∃ pkg, resolve_target (index_packages_by_name exReposVirt).1
        (index_providers (index_packages_by_name exReposVirt).1) "virt" = .ok pkg ∧
      pkg.name ∈ providersLookup
        (index_providers (index_packages_by_name exReposVirt).1) "virt" ∧
      ∀ x ∈ providersLookup
          (index_providers (index_packages_by_name exReposVirt).1) "virt",
        pkg.name ≤ x :=
  claims_C10_provider_choice_minimal exReposVirt "virt" (by rfl)
    (by rw [show providersLookup
          (index_providers (index_packages_by_name exReposVirt).1) "virt"
          = ["p1", "p2"] from rfl]
        decide)

/-- C6: a synchronization pass receiving an HTTP 304 (not modified) response performs no
filesystem effect at all — the metadata directory and the last-modified and etag
sidecar files are untouched and the extractor is never invoked — and the pass still
succeeds. -/
theorem claims_C6_not_modified_frame
    (directory : String) (response : HttpResponse) (extractorOk : Bool)
    (h304 : response.status = 304) :
    download_database directory response extractorOk = ([], .ok ()) ∧
      ∀ d, FsEvent.invokeExtractor d ∉ (download_database directory response extractorOk).1 := by
  have h : download_database directory response extractorOk = ([], .ok ()) := by
    unfold download_database maybe_download error_for_status
    simp [h304]
  refine ⟨h, ?_⟩
  intro d hd
  rw [h] at hd
  cases hd

/-- Witness for C6: a concrete 304 response leaves the directory untouched. -/
theorem claims_C6_witness :
    download_database "db/core" ⟨304, none, none, [1, 2]⟩ true = ([], .ok ()) :=
  (claims_C6_not_modified_frame "db/core" ⟨304, none, none, [1, 2]⟩ true rfl).1

/-- C7: the downloader skips the fetch exactly when a file exists whose byte length
equals the recorded compressed size and whose SHA-256 digest matches the recorded one
under ASCII-case-insensitive comparison; in particular a size match with a checksum
mismatch forces a re-download that overwrites the file with the fetched bytes, and the
returned boolean reports whether a download occurred. -/
theorem claims_C7_download_package_skip_exact
    (file_sha256 : List Nat → String) (existing : Option (List Nat))
    (package : DatabasePackage) (netData : List Nat) :
    ((download_package file_sha256 existing package netData).1 = false ↔
      ∃ c, existing = some c ∧ c.length = package.compressed_size ∧
        eq_ignore_ascii_case (file_sha256 c) package.sha256sum = true) ∧
    ((download_package file_sha256 existing package netData).1 = true →
      (download_package file_sha256 existing package netData).2 = some netData) ∧
    ((download_package file_sha256 existing package netData).1 = false →
      (download_package file_sha256 existing package netData).2 = existing) ∧
    (∀ c, existing = some c → c.length = package.compressed_size →
      eq_ignore_ascii_case (file_sha256 c) package.sha256sum = false →
      (download_package file_sha256 existing package netData).1 = true ∧
        (download_package file_sha256 existing package netData).2 = some netData) := by
  cases existing with
  | none =>
    refine ⟨?_, ?_, ?_, ?_⟩ <;> simp [download_package]
  | some c =>
    by_cases h₁ : c.length = package.compressed_size
    · by_cases h₂ : eq_ignore_ascii_case (file_sha256 c) package.sha256sum = true
      · refine ⟨?_, ?_, ?_, ?_⟩ <;> simp [download_package, h₁, h₂]
      · have h₂' : eq_ignore_ascii_case (file_sha256 c) package.sha256sum = false := by
          simpa using h₂
        refine ⟨?_, ?_, ?_, ?_⟩ <;> simp [download_package, h₁, h₂']
    · refine ⟨?_, ?_, ?_, ?_⟩ <;> simp [download_package, h₁]

/-- Witness for C7: a file of matching size but wrong checksum is re-downloaded and
overwritten with the fetched bytes. -/
theorem claims_C7_witness :
    (download_package (fun _ => "ff") (some [0])
        ⟨"a", "a.pkg", 1, "aa", [], []⟩ [7]).1 = true ∧
      (download_package (fun _ => "ff") (some [0])
        ⟨"a", "a.pkg", 1, "aa", [], []⟩ [7]).2 = some [7] :=
  (claims_C7_download_package_skip_exact (fun _ => "ff") (some [0])
    ⟨"a", "a.pkg", 1, "aa", [], []⟩ [7]).2.2.2 [0] rfl (by decide) (by decide)

end PacmanRepoTools
